import Mathlib

/-!
Verification of the ImageVisLab image-processing core.

The TypeScript sources are shallowly embedded: an `ImageData` buffer is a
flat RGBA sample list together with its dimensions, JavaScript numbers are
modelled as exact rationals `ℚ` (integral samples as `ℕ`/`ℤ`),
`Math.round x` is `⌊x + 1/2⌋`, and a store into a `Uint8ClampedArray`
clamps its integral argument to `[0, 255]`.  Loops over the flat buffer in
steps of four samples become `map4`; loops over the pixel grid become
`catMap` (concatenation of the per-pixel blocks in row-major order, which
is exactly the region the source loops write).
-/

namespace ImageVisLab

/-- Store of an integral value into a `Uint8ClampedArray` cell: clamp to `[0,255]`. -/
def clampByte (v : ℤ) : ℕ := (min 255 (max 0 v)).toNat

/-- JavaScript `Math.round`: round half up, `⌊q + 1/2⌋`. -/
def roundJS (q : ℚ) : ℤ := ⌊q + 1/2⌋

/-- An `ImageData` buffer: dimensions plus the flat RGBA sample array. -/
structure Image where
  width : ℕ
  height : ℕ
  data : List ℕ
deriving DecidableEq

/-- A buffer is well formed when every sample is a byte (`Uint8ClampedArray` invariant). -/
abbrev ByteData (l : List ℕ) : Prop := ∀ v ∈ l, v ≤ 255

/-- The `for (i = 0; i < data.length; i += 4)` loop pattern: rewrite each
RGBA block through `f`.  (A trailing fragment shorter than four samples
never occurs on a real `width*height*4` buffer.) -/
def map4 (f : ℕ → ℕ → ℕ → ℕ → List ℕ) : List ℕ → List ℕ
  | r :: g :: b :: a :: t => f r g b a ++ map4 f t
  | t => t

/-- The RGBA blocks of a flat buffer, as quadruples. -/
def quads : List ℕ → List (ℕ × ℕ × ℕ × ℕ)
  | r :: g :: b :: a :: t => (r, g, b, a) :: quads t
  | _ => []

/-- Concatenation of the blocks `f 0 ++ f 1 ++ ... ++ f (n-1)`: the data
written by a loop running `i = 0 .. n-1` emitting block `f i`. -/
def catMap (f : ℕ → List ℕ) : ℕ → List ℕ
  | 0 => []
  | n + 1 => catMap f n ++ f n

theorem cons4_append {α : Type} (n1 n2 n3 n4 : α) (X : List α) :
    [n1, n2, n3, n4] ++ X = n1 :: n2 :: n3 :: n4 :: X := rfl

theorem quads_length : ∀ l : List ℕ, (quads l).length = l.length / 4
  | r :: g :: b :: a :: t => by
      simp only [quads, List.length_cons, quads_length t]
      omega
  | [] => by show (0 : ℕ) = 0 / 4; decide
  | [_] => by show (0 : ℕ) = 1 / 4; decide
  | [_, _] => by show (0 : ℕ) = 2 / 4; decide
  | [_, _, _] => by show (0 : ℕ) = 3 / 4; decide

theorem mem_of_quads : ∀ {l : List ℕ} {q : ℕ × ℕ × ℕ × ℕ}, q ∈ quads l →
    q.1 ∈ l ∧ q.2.1 ∈ l ∧ q.2.2.1 ∈ l ∧ q.2.2.2 ∈ l
  | r :: g :: b :: a :: t, q, hq => by
      simp only [quads, List.mem_cons] at hq
      rcases hq with h | h
      · subst h; simp
      · have := mem_of_quads h
        simp only [List.mem_cons]
        tauto

theorem map4_congr {f g : ℕ → ℕ → ℕ → ℕ → List ℕ} :
    ∀ l : List ℕ, (∀ q ∈ quads l, f q.1 q.2.1 q.2.2.1 q.2.2.2 = g q.1 q.2.1 q.2.2.1 q.2.2.2) →
    map4 f l = map4 g l
  | r :: g' :: b :: a :: t, h => by
      simp only [map4]
      have h1 := h (r, g', b, a) (by simp [quads])
      rw [h1, map4_congr t]
      intro q hq
      exact h q (by simp [quads, hq])
  | [], _ => rfl
  | [_], _ => rfl
  | [_, _], _ => rfl
  | [_, _, _], _ => rfl

theorem clampByte_coe {v : ℕ} (h : v ≤ 255) : clampByte (v : ℤ) = v := by
  simp only [clampByte]
  omega

/-! ### List access helpers -/

theorem getD_append_lt {α : Type} :
    ∀ (l l' : List α) (i : ℕ) (d : α), i < l.length → (l ++ l').getD i d = l.getD i d
  | [], _, _, _, h => by simp at h
  | x :: t, l', 0, d, _ => rfl
  | x :: t, l', i + 1, d, h => by
      simp only [List.cons_append, List.getD_cons_succ]
      exact getD_append_lt t l' i d (by simpa using h)

theorem getD_append_ge {α : Type} :
    ∀ (l l' : List α) (i : ℕ) (d : α), l.length ≤ i → (l ++ l').getD i d = l'.getD (i - l.length) d
  | [], _, _, _, _ => by simp
  | x :: t, l', i + 1, d, h => by
      simp only [List.cons_append, List.getD_cons_succ, List.length_cons]
      rw [getD_append_ge t l' i d (by simpa using h)]
      congr 1
      omega

theorem catMap_length (f : ℕ → List ℕ) (L : ℕ) (hL : ∀ i, (f i).length = L) :
    ∀ n, (catMap f n).length = n * L
  | 0 => by simp [catMap]
  | n + 1 => by
      simp only [catMap, List.length_append, catMap_length f L hL n, hL]
      ring

theorem catMap_getD (f : ℕ → List ℕ) (L : ℕ) (hL : ∀ i, (f i).length = L) :
    ∀ (n p c : ℕ) (d : ℕ), p < n → c < L → (catMap f n).getD (L * p + c) d = (f p).getD c d
  | n + 1, p, c, d, hp, hc => by
      have hlen : (catMap f n).length = n * L := catMap_length f L hL n
      simp only [catMap]
      rcases Nat.lt_or_ge p n with h | h
      · rw [getD_append_lt]
        · exact catMap_getD f L hL n p c d h hc
        · rw [hlen, Nat.mul_comm n L]
          calc L * p + c < L * p + L := by omega
          _ = L * (p + 1) := by ring
          _ ≤ L * n := Nat.mul_le_mul_left L h
      · have hpn : p = n := by omega
        rw [hpn, getD_append_ge]
        · rw [hlen, Nat.mul_comm n L]
          congr 1
          omega
        · rw [hlen, Nat.mul_comm n L]
          omega

/-- Access into a row-major grid of 4-sample pixel blocks. -/
theorem grid_getD (w h : ℕ) (pix : ℕ → ℕ → List ℕ) (hp : ∀ x y, (pix x y).length = 4)
    (x y c : ℕ) (d : ℕ) (hx : x < w) (hy : y < h) (hc : c < 4) :
    (catMap (fun yy => catMap (fun xx => pix xx yy) w) h).getD (4 * (y * w + x) + c) d =
      (pix x y).getD c d := by
  have hrow : ∀ yy, (catMap (fun xx => pix xx yy) w).length = w * 4 := by
    intro yy
    exact catMap_length _ 4 (fun i => hp i yy) w
  have hidx : 4 * (y * w + x) + c = (w * 4) * y + (4 * x + c) := by ring
  rw [hidx, catMap_getD _ (w * 4) hrow h y (4 * x + c) d hy (by omega)]
  exact catMap_getD _ 4 (fun i => hp i y) w x c d hx hc

/-! ### `applyNegative` (src/src/utils/imageFilters.ts)

For each RGBA block the three color samples are replaced by `255 - r`
(stored through the clamped array) and the alpha sample is kept. -/

def applyNegative (img : Image) : Image :=
  { img with data := map4 (fun r g b a =>
      [clampByte (255 - (r : ℤ)), clampByte (255 - (g : ℤ)), clampByte (255 - (b : ℤ)), a]) img.data }

theorem negative_block_involutive : ∀ l : List ℕ, ByteData l →
    map4 (fun r g b a =>
      [clampByte (255 - (r : ℤ)), clampByte (255 - (g : ℤ)), clampByte (255 - (b : ℤ)), a])
      (map4 (fun r g b a =>
        [clampByte (255 - (r : ℤ)), clampByte (255 - (g : ℤ)), clampByte (255 - (b : ℤ)), a]) l) = l
  | r :: g :: b :: a :: t, h => by
      have hr := h r (by simp)
      have hg := h g (by simp)
      have hb := h b (by simp)
      have ht : ByteData t := fun v hv => h v (by simp [hv])
      simp only [map4, cons4_append, List.append_eq, List.nil_append]
      rw [negative_block_involutive t ht]
      simp only [clampByte, List.cons.injEq, and_true]
      refine ⟨by omega, by omega, by omega⟩
  | [], _ => rfl
  | [_], _ => rfl
  | [_, _], _ => rfl
  | [_, _, _], _ => rfl

/-- C5: `applyNegative` sends every color sample `r` to `255 - r`, keeps alpha,
and is an involution on byte buffers. -/
theorem negative_pointwise_and_involutive (img : Image) (hwf : ByteData img.data) :
    (applyNegative img).data = map4 (fun r g b a => [255 - r, 255 - g, 255 - b, a]) img.data ∧
      applyNegative (applyNegative img) = img := by
  obtain ⟨w, h, d⟩ := img
  constructor
  · apply map4_congr
    intro q hq
    obtain ⟨h1, h2, h3, _⟩ := mem_of_quads hq
    have e1 := hwf _ h1
    have e2 := hwf _ h2
    have e3 := hwf _ h3
    simp only [clampByte, List.cons.injEq, and_true]
    refine ⟨by omega, by omega, by omega⟩
  · simp only [applyNegative]
    rw [negative_block_involutive d hwf]

theorem negative_witness :
    ByteData [10, 20, 30, 255] ∧
      (applyNegative ⟨1, 1, [10, 20, 30, 255]⟩).data =
        map4 (fun r g b a => [255 - r, 255 - g, 255 - b, a]) [10, 20, 30, 255] ∧
      applyNegative (applyNegative ⟨1, 1, [10, 20, 30, 255]⟩) = ⟨1, 1, [10, 20, 30, 255]⟩ := by
  have h : ByteData [10, 20, 30, 255] := by decide
  obtain ⟨h1, h2⟩ := negative_pointwise_and_involutive ⟨1, 1, [10, 20, 30, 255]⟩ h
  exact ⟨h, h1, h2⟩

/-! ### `applySwapChannels` (src/src/utils/edgeDetection.ts)

New R = old B, new G = old R, new B = old G, alpha kept. -/

def applySwapChannels (img : Image) : Image :=
  { img with data := map4 (fun r g b a =>
      [clampByte (b : ℤ), clampByte (r : ℤ), clampByte (g : ℤ), a]) img.data }

theorem swap_block_order_three : ∀ l : List ℕ, ByteData l →
    map4 (fun r g b a => [clampByte (b : ℤ), clampByte (r : ℤ), clampByte (g : ℤ), a])
      (map4 (fun r g b a => [clampByte (b : ℤ), clampByte (r : ℤ), clampByte (g : ℤ), a])
        (map4 (fun r g b a => [clampByte (b : ℤ), clampByte (r : ℤ), clampByte (g : ℤ), a]) l)) = l
  | r :: g :: b :: a :: t, h => by
      have hr := h r (by simp)
      have hg := h g (by simp)
      have hb := h b (by simp)
      have ht : ByteData t := fun v hv => h v (by simp [hv])
      simp only [map4, cons4_append, List.append_eq, List.nil_append]
      rw [swap_block_order_three t ht]
      simp only [clampByte, List.cons.injEq, and_true]
      refine ⟨by omega, by omega, by omega⟩
  | [], _ => rfl
  | [_], _ => rfl
  | [_, _], _ => rfl
  | [_, _, _], _ => rfl

/-- C10: one application of `applySwapChannels` performs the 3-cycle
(new R = old B, new G = old R, new B = old G) keeping alpha, and three
applications restore the original image. -/
theorem swapChannels_cycle_order_three (img : Image) (hwf : ByteData img.data) :
    (applySwapChannels img).data = map4 (fun r g b a => [b, r, g, a]) img.data ∧
      applySwapChannels (applySwapChannels (applySwapChannels img)) = img := by
  obtain ⟨w, h, d⟩ := img
  constructor
  · apply map4_congr
    intro q hq
    obtain ⟨h1, h2, h3, _⟩ := mem_of_quads hq
    have e1 := hwf _ h1
    have e2 := hwf _ h2
    have e3 := hwf _ h3
    simp only [clampByte, List.cons.injEq, and_true]
    refine ⟨by omega, by omega, by omega⟩
  · simp only [applySwapChannels]
    rw [swap_block_order_three d hwf]

theorem swapChannels_witness :
    ByteData [10, 20, 30, 40] ∧
      (applySwapChannels ⟨1, 1, [10, 20, 30, 40]⟩).data =
        map4 (fun r g b a => [b, r, g, a]) [10, 20, 30, 40] ∧
      applySwapChannels (applySwapChannels (applySwapChannels ⟨1, 1, [10, 20, 30, 40]⟩)) =
        ⟨1, 1, [10, 20, 30, 40]⟩ := by
  have h : ByteData [10, 20, 30, 40] := by decide
  obtain ⟨h1, h2⟩ := swapChannels_cycle_order_three ⟨1, 1, [10, 20, 30, 40]⟩ h
  exact ⟨h, h1, h2⟩

/-! ### `applyQuantization` (src/src/utils/imageFilters.ts)

`levels` is silently clamped into `[2,256]`, `step = 255/(levels-1)`, and each
sample `i` goes through the lookup table
`round(min(255, max(0, round(i/step)*step)))`, built in a clamped array. -/

def clampLevels (levels : ℤ) : ℤ := max 2 (min 256 levels)

def qstep (levels : ℤ) : ℚ := 255 / ((clampLevels levels : ℚ) - 1)

def quantLut (levels : ℤ) (i : ℕ) : ℕ :=
  clampByte (roundJS (min 255 (max 0 ((roundJS ((i : ℚ) / qstep levels) : ℚ) * qstep levels))))

def applyQuantization (img : Image) (levels : ℤ) : Image :=
  { img with data := map4 (fun r g b a =>
      [quantLut levels r, quantLut levels g, quantLut levels b, a]) img.data }

theorem clampLevels_ge (levels : ℤ) : 2 ≤ clampLevels levels := le_max_left _ _

theorem qstep_pos (levels : ℤ) : 0 < qstep levels := by
  have h2 : (2 : ℚ) ≤ (clampLevels levels : ℚ) := by exact_mod_cast clampLevels_ge levels
  apply div_pos (by norm_num)
  linarith

theorem div_qstep_255 (levels : ℤ) : (255 : ℚ) / qstep levels = (clampLevels levels : ℚ) - 1 := by
  have h2 : (2 : ℚ) ≤ (clampLevels levels : ℚ) := by exact_mod_cast clampLevels_ge levels
  rw [qstep, div_div_eq_mul_div, mul_comm, mul_div_assoc,
    div_self (by norm_num : (255 : ℚ) ≠ 0), mul_one]

theorem quant_index_nonneg (levels : ℤ) (i : ℕ) : 0 ≤ roundJS ((i : ℚ) / qstep levels) := by
  rw [roundJS, Int.le_floor]
  have h : (0 : ℚ) ≤ (i : ℚ) / qstep levels :=
    div_nonneg (by positivity) (le_of_lt (qstep_pos levels))
  norm_num
  linarith

theorem quant_index_le (levels : ℤ) (i : ℕ) (hi : i ≤ 255) :
    roundJS ((i : ℚ) / qstep levels) ≤ clampLevels levels - 1 := by
  have hmono : (i : ℚ) / qstep levels ≤ 255 / qstep levels :=
    div_le_div_of_nonneg_right (by exact_mod_cast hi) (qstep_pos levels).le
  rw [div_qstep_255] at hmono
  rw [roundJS]
  have hfl : ⌊((clampLevels levels - 1 : ℤ) : ℚ) + 1/2⌋ = clampLevels levels - 1 := by
    rw [add_comm, Int.floor_add_int]
    norm_num
  calc ⌊(i : ℚ) / qstep levels + 1/2⌋ ≤ ⌊((clampLevels levels - 1 : ℤ) : ℚ) + 1/2⌋ := by
        apply Int.floor_le_floor
        push_cast
        linarith
  _ = clampLevels levels - 1 := hfl

/-- On byte inputs the inner `min 255 (max 0 _)` of the lookup table is the
identity, so the table computes the spec formula `round(round(i/step)·step)`
clamped to a byte. -/
theorem quantLut_eq_claim (levels : ℤ) (v : ℕ) (hv : v ≤ 255) :
    quantLut levels v =
      clampByte (roundJS ((roundJS ((v : ℚ) / qstep levels) : ℚ) * qstep levels)) := by
  have hk0 := quant_index_nonneg levels v
  have hk1 := quant_index_le levels v hv
  have hs := qstep_pos levels
  have hq0 : (0 : ℚ) ≤ (roundJS ((v : ℚ) / qstep levels) : ℚ) * qstep levels := by
    apply mul_nonneg _ hs.le
    exact_mod_cast hk0
  have hq1 : (roundJS ((v : ℚ) / qstep levels) : ℚ) * qstep levels ≤ 255 := by
    have hle : (roundJS ((v : ℚ) / qstep levels) : ℚ) ≤ (clampLevels levels : ℚ) - 1 := by
      exact_mod_cast hk1
    have h2 : (2 : ℚ) ≤ (clampLevels levels : ℚ) := by exact_mod_cast clampLevels_ge levels
    have hne : (clampLevels levels : ℚ) - 1 ≠ 0 := by linarith
    have hcancel : ((clampLevels levels : ℚ) - 1) * qstep levels = 255 := by
      rw [qstep]
      field_simp
    calc (roundJS ((v : ℚ) / qstep levels) : ℚ) * qstep levels
        ≤ ((clampLevels levels : ℚ) - 1) * qstep levels :=
          mul_le_mul_of_nonneg_right hle hs.le
    _ = 255 := hcancel
  rw [quantLut, max_eq_right hq0, min_eq_right hq1]

/-- C4: on a byte buffer, quantization maps each color sample `r` to
`clamp(round(round(r/step)·step))` with `step = 255/(levels-1)` for the
silently clamped `levels`, keeps alpha, and the lookup table takes at most
`levels` distinct values over the full domain `[0,255]`. -/
theorem quantization_formula_and_level_count (img : Image) (levels : ℤ)
    (hwf : ByteData img.data) :
    (applyQuantization img levels).data =
      map4 (fun r g b a =>
        [clampByte (roundJS ((roundJS ((r : ℚ) / qstep levels) : ℚ) * qstep levels)),
         clampByte (roundJS ((roundJS ((g : ℚ) / qstep levels) : ℚ) * qstep levels)),
         clampByte (roundJS ((roundJS ((b : ℚ) / qstep levels) : ℚ) * qstep levels)),
         a]) img.data ∧
      ((Finset.range 256).image (quantLut levels)).card ≤ (clampLevels levels).toNat := by
  constructor
  · apply map4_congr
    intro q hq
    obtain ⟨h1, h2, h3, _⟩ := mem_of_quads hq
    rw [quantLut_eq_claim levels _ (hwf _ h1), quantLut_eq_claim levels _ (hwf _ h2),
      quantLut_eq_claim levels _ (hwf _ h3)]
  · have hsub : (Finset.range 256).image (quantLut levels) ⊆
        (Finset.Icc (0 : ℤ) (clampLevels levels - 1)).image
          (fun k : ℤ => clampByte (roundJS (min 255 (max 0 ((k : ℚ) * qstep levels))))) := by
      intro val hval
      obtain ⟨i, hi, rfl⟩ := Finset.mem_image.mp hval
      apply Finset.mem_image.mpr
      refine ⟨roundJS ((i : ℚ) / qstep levels), ?_, rfl⟩
      rw [Finset.mem_Icc]
      exact ⟨quant_index_nonneg levels i,
        quant_index_le levels i (by simpa using Nat.lt_succ_iff.mp (Finset.mem_range.mp hi))⟩
    calc ((Finset.range 256).image (quantLut levels)).card
        ≤ ((Finset.Icc (0 : ℤ) (clampLevels levels - 1)).image
            (fun k : ℤ => clampByte (roundJS (min 255 (max 0 ((k : ℚ) * qstep levels)))))).card :=
          Finset.card_le_card hsub
    _ ≤ (Finset.Icc (0 : ℤ) (clampLevels levels - 1)).card := Finset.card_image_le
    _ = (clampLevels levels).toNat := by rw [Int.card_Icc]; congr 1; omega

theorem quantization_witness :
    ByteData [100, 150, 200, 255] ∧
      (applyQuantization ⟨1, 1, [100, 150, 200, 255]⟩ 4).data =
        map4 (fun r g b a =>
          [clampByte (roundJS ((roundJS ((r : ℚ) / qstep 4) : ℚ) * qstep 4)),
           clampByte (roundJS ((roundJS ((g : ℚ) / qstep 4) : ℚ) * qstep 4)),
           clampByte (roundJS ((roundJS ((b : ℚ) / qstep 4) : ℚ) * qstep 4)),
           a]) [100, 150, 200, 255] ∧
      ((Finset.range 256).image (quantLut 4)).card ≤ (clampLevels 4).toNat := by
  have h : ByteData [100, 150, 200, 255] := by decide
  obtain ⟨h1, h2⟩ := quantization_formula_and_level_count ⟨1, 1, [100, 150, 200, 255]⟩ 4 h
  exact ⟨h, h1, h2⟩

/-! ### `applyEqualization` (src/src/utils/imageFilters.ts)

Per color channel: 256-bin histogram, running cumulative sum, LUT
`round(cumulative/totalPixels * 255)` built in a clamped array, then remap. -/

def chanR (l : List ℕ) : List ℕ := (quads l).map (fun q => q.1)

def chanG (l : List ℕ) : List ℕ := (quads l).map (fun q => q.2.1)

def chanB (l : List ℕ) : List ℕ := (quads l).map (fun q => q.2.2.1)

/-- Cumulative histogram count through bin `v` (the running sum of the source loop). -/
def cdf (chan : List ℕ) (v : ℕ) : ℕ := ∑ j ∈ Finset.range (v + 1), chan.count j

def eqLut (chan : List ℕ) (total : ℕ) (v : ℕ) : ℕ :=
  clampByte (roundJS ((cdf chan v : ℚ) / (total : ℚ) * 255))

def applyEqualization (img : Image) : Image :=
  { img with data := map4 (fun r g b a =>
      [eqLut (chanR img.data) (img.width * img.height) r,
       eqLut (chanG img.data) (img.width * img.height) g,
       eqLut (chanB img.data) (img.width * img.height) b, a]) img.data }

theorem count_replicate_eq (j v N : ℕ) :
    (List.replicate N v).count j = if j = v then N else 0 := by
  rcases eq_or_ne j v with rfl | h
  · simp [List.count_replicate]
  · simp [List.count_replicate, h, Ne.symm h]

theorem cdf_replicate (N v : ℕ) : cdf (List.replicate N v) v = N := by
  rw [cdf]
  have h : ∀ j ∈ Finset.range (v + 1), (List.replicate N v).count j =
      if j = v then N else 0 := fun j _ => count_replicate_eq j v N
  rw [Finset.sum_congr rfl h, Finset.sum_ite_eq' (Finset.range (v + 1)) v (fun _ => N)]
  simp

theorem eqLut_replicate (N v : ℕ) (hN : 0 < N) : eqLut (List.replicate N v) N v = 255 := by
  rw [eqLut, cdf_replicate]
  have h1 : ((N : ℚ)) / (N : ℚ) = 1 := div_self (Nat.cast_ne_zero.mpr (by omega))
  rw [h1, one_mul]
  have h2 : roundJS 255 = 255 := by rw [roundJS]; norm_num
  rw [h2]
  decide

/-- C9: on a non-empty buffer whose color samples all equal one value, every
output color sample of `applyEqualization` equals one single value. -/
theorem equalization_uniform_single_value (img : Image) (v : ℕ)
    (hpos : 0 < img.width * img.height)
    (hlen : img.data.length = 4 * (img.width * img.height))
    (huni : ∀ q ∈ quads img.data, q.1 = v ∧ q.2.1 = v ∧ q.2.2.1 = v) :
    ∃ s, (applyEqualization img).data = map4 (fun _ _ _ a => [s, s, s, a]) img.data := by
  refine ⟨255, ?_⟩
  have hN : (quads img.data).length = img.width * img.height := by
    rw [quads_length, hlen]
    omega
  have hchan : ∀ (pick : ℕ × ℕ × ℕ × ℕ → ℕ), (∀ q ∈ quads img.data, pick q = v) →
      (quads img.data).map pick = List.replicate (img.width * img.height) v := by
    intro pick hpick
    have := List.eq_replicate_of_mem (l := (quads img.data).map pick) (a := v) ?_
    · rw [this, List.length_map, hN]
    · intro b hb
      obtain ⟨q, hq, rfl⟩ := List.mem_map.mp hb
      exact hpick q hq
  have hR : chanR img.data = List.replicate (img.width * img.height) v :=
    hchan _ (fun q hq => (huni q hq).1)
  have hG : chanG img.data = List.replicate (img.width * img.height) v :=
    hchan _ (fun q hq => (huni q hq).2.1)
  have hB : chanB img.data = List.replicate (img.width * img.height) v :=
    hchan _ (fun q hq => (huni q hq).2.2)
  show map4 _ img.data = map4 _ img.data
  apply map4_congr
  intro q hq
  obtain ⟨e1, e2, e3⟩ := huni q hq
  rw [e1, e2, e3, hR, hG, hB, eqLut_replicate _ _ hpos]

theorem equalization_witness :
    0 < (1 : ℕ) * 1 ∧
      (∀ q ∈ quads [7, 7, 7, 9], q.1 = 7 ∧ q.2.1 = 7 ∧ q.2.2.1 = 7) ∧
      ∃ s, (applyEqualization ⟨1, 1, [7, 7, 7, 9]⟩).data =
        map4 (fun _ _ _ a => [s, s, s, a]) [7, 7, 7, 9] := by
  refine ⟨by decide, by decide, ?_⟩
  exact equalization_uniform_single_value ⟨1, 1, [7, 7, 7, 9]⟩ 7 (by decide) (by decide) (by decide)

/-! ### Morphology (src/unnamed/part_001)

Erosion and dilation use the all-ones 3x3 structuring element.  A footprint
cell outside the image forces the eroded value to 0 (erosion assigns
`minVal = 0`) and is skipped by dilation (`maxVal` keeps its value).  The
single red sample drives all three output color samples; alpha is copied. -/

/-- The nine structuring-element offsets `(sx-1, sy-1)` in source loop order. -/
def offsets : List (ℤ × ℤ) :=
  [(-1, -1), (0, -1), (1, -1), (-1, 0), (0, 0), (1, 0), (-1, 1), (0, 1), (1, 1)]

/-- Coordinate bounds check `px >= 0 && px < width && py >= 0 && py < height`. -/
abbrev inB (w h : ℕ) (x y : ℤ) : Prop := 0 ≤ x ∧ x < (w : ℤ) ∧ 0 ≤ y ∧ y < (h : ℤ)

/-- Red sample at `(x, y)`: `data[(y*width + x)*4]` (plus a channel offset). -/
def colorAt (img : Image) (x y : ℤ) (c : ℕ) : ℕ :=
  img.data.getD (((y * (img.width : ℤ) + x) * 4).toNat + c) 0

/-- The image extended by background 0 outside its bounds. -/
def embed (img : Image) (x y : ℤ) : ℕ :=
  if inB img.width img.height x y then colorAt img x y 0 else 0

/-- The erosion inner loop: `minVal = 0` on an out-of-bounds cell, otherwise
`minVal = min(minVal, data[idx])`, starting from 255. -/
def erodePix (img : Image) (x y : ℤ) : ℕ :=
  offsets.foldl (fun acc d =>
    if inB img.width img.height (x + d.1) (y + d.2) then
      min acc (colorAt img (x + d.1) (y + d.2) 0)
    else 0) 255

/-- The dilation inner loop: out-of-bounds cells are skipped, otherwise
`maxVal = max(maxVal, data[idx])`, starting from 0. -/
def dilatePix (img : Image) (x y : ℤ) : ℕ :=
  offsets.foldl (fun acc d =>
    if inB img.width img.height (x + d.1) (y + d.2) then
      max acc (colorAt img (x + d.1) (y + d.2) 0)
    else acc) 0

def erodeBlock (img : Image) (x y : ℕ) : List ℕ :=
  [erodePix img x y, erodePix img x y, erodePix img x y,
   img.data.getD ((y * img.width + x) * 4 + 3) 0]

def applyErosion (img : Image) : Image :=
  ⟨img.width, img.height,
   catMap (fun y => catMap (fun x => erodeBlock img x y) img.width) img.height⟩

def dilateBlock (img : Image) (x y : ℕ) : List ℕ :=
  [dilatePix img x y, dilatePix img x y, dilatePix img x y,
   img.data.getD ((y * img.width + x) * 4 + 3) 0]

def applyDilation (img : Image) : Image :=
  ⟨img.width, img.height,
   catMap (fun y => catMap (fun x => dilateBlock img x y) img.width) img.height⟩

/-- Opening: erosion followed by dilation. -/
def applyOpening (img : Image) : Image := applyDilation (applyErosion img)

/-- Plane erosion: minimum of a `ℤ²`-indexed field over the 3x3 footprint
(started from 255 like the source accumulator). -/
def pmin (f : ℤ → ℤ → ℕ) (x y : ℤ) : ℕ :=
  offsets.foldl (fun acc d => min acc (f (x + d.1) (y + d.2))) 255

/-- Plane dilation: maximum of a `ℤ²`-indexed field over the 3x3 footprint. -/
def pmax (f : ℤ → ℤ → ℕ) (x y : ℤ) : ℕ :=
  offsets.foldl (fun acc d => max acc (f (x + d.1) (y + d.2))) 0

theorem le_foldl_min {l : List ℕ} {b c : ℕ} :
    c ≤ l.foldl min b ↔ c ≤ b ∧ ∀ v ∈ l, c ≤ v := by
  induction l generalizing b with
  | nil => simp
  | cons x t ih =>
      simp only [List.foldl_cons, ih, le_min_iff, List.mem_cons]
      constructor
      · rintro ⟨⟨h1, h2⟩, h3⟩
        exact ⟨h1, fun v hv => by rcases hv with rfl | hv; exact h2; exact h3 v hv⟩
      · rintro ⟨h1, h2⟩
        exact ⟨⟨h1, h2 x (Or.inl rfl)⟩, fun v hv => h2 v (Or.inr hv)⟩

theorem foldl_max_le {l : List ℕ} {b c : ℕ} :
    l.foldl max b ≤ c ↔ b ≤ c ∧ ∀ v ∈ l, v ≤ c := by
  induction l generalizing b with
  | nil => simp
  | cons x t ih =>
      simp only [List.foldl_cons, ih, max_le_iff, List.mem_cons]
      constructor
      · rintro ⟨⟨h1, h2⟩, h3⟩
        exact ⟨h1, fun v hv => by rcases hv with rfl | hv; exact h2; exact h3 v hv⟩
      · rintro ⟨h1, h2⟩
        exact ⟨⟨h1, h2 x (Or.inl rfl)⟩, fun v hv => h2 v (Or.inr hv)⟩

theorem le_pmin_iff (f : ℤ → ℤ → ℕ) (x y : ℤ) (c : ℕ) :
    c ≤ pmin f x y ↔ c ≤ 255 ∧ ∀ d ∈ offsets, c ≤ f (x + d.1) (y + d.2) := by
  rw [pmin, ← List.foldl_map (fun d : ℤ × ℤ => f (x + d.1) (y + d.2)) min offsets 255,
    le_foldl_min]
  constructor
  · rintro ⟨h1, h2⟩
    exact ⟨h1, fun d hd => h2 _ (List.mem_map_of_mem _ hd)⟩
  · rintro ⟨h1, h2⟩
    refine ⟨h1, fun v hv => ?_⟩
    obtain ⟨d, hd, rfl⟩ := List.mem_map.mp hv
    exact h2 d hd

theorem pmax_le_iff (f : ℤ → ℤ → ℕ) (x y : ℤ) (c : ℕ) :
    pmax f x y ≤ c ↔ ∀ d ∈ offsets, f (x + d.1) (y + d.2) ≤ c := by
  rw [pmax, ← List.foldl_map (fun d : ℤ × ℤ => f (x + d.1) (y + d.2)) max offsets 0,
    foldl_max_le]
  constructor
  · rintro ⟨_, h2⟩
    exact fun d hd => h2 _ (List.mem_map_of_mem _ hd)
  · intro h2
    refine ⟨Nat.zero_le c, fun v hv => ?_⟩
    obtain ⟨d, hd, rfl⟩ := List.mem_map.mp hv
    exact h2 d hd

theorem pmin_le_255 (f : ℤ → ℤ → ℕ) (x y : ℤ) : pmin f x y ≤ 255 :=
  ((le_pmin_iff f x y (pmin f x y)).mp le_rfl).1

theorem pmin_le (f : ℤ → ℤ → ℕ) (x y : ℤ) {d : ℤ × ℤ} (hd : d ∈ offsets) :
    pmin f x y ≤ f (x + d.1) (y + d.2) :=
  ((le_pmin_iff f x y (pmin f x y)).mp le_rfl).2 d hd

theorem le_pmax (f : ℤ → ℤ → ℕ) (x y : ℤ) {d : ℤ × ℤ} (hd : d ∈ offsets) :
    f (x + d.1) (y + d.2) ≤ pmax f x y :=
  (pmax_le_iff f x y (pmax f x y)).mp le_rfl d hd

theorem offsets_neg_mem : ∀ d ∈ offsets, (-d.1, -d.2) ∈ offsets := by decide

theorem offsets_small : ∀ d ∈ offsets, -1 ≤ d.1 ∧ d.1 ≤ 1 ∧ -1 ≤ d.2 ∧ d.2 ≤ 1 := by decide

/-- Galois adjunction between plane dilation and plane erosion over the
(symmetric) 3x3 structuring element, for fields bounded by 255. -/
theorem pmax_le_iff_le_pmin (f g : ℤ → ℤ → ℕ) (hf : ∀ x y, f x y ≤ 255) :
    (∀ x y, pmax f x y ≤ g x y) ↔ (∀ x y, f x y ≤ pmin g x y) := by
  constructor
  · intro h x y
    rw [le_pmin_iff]
    refine ⟨hf x y, fun d hd => ?_⟩
    have h2 := (pmax_le_iff f (x + d.1) (y + d.2) _).mp (h (x + d.1) (y + d.2))
    have h3 := h2 (-d.1, -d.2) (offsets_neg_mem d hd)
    rw [show x + d.1 + (-d.1, -d.2).1 = x by simp, show y + d.2 + (-d.1, -d.2).2 = y by simp] at h3
    exact h3
  · intro h x y
    rw [pmax_le_iff]
    intro d hd
    have h2 := h (x + d.1) (y + d.2)
    have h3 := pmin_le g (x + d.1) (y + d.2) (offsets_neg_mem d hd)
    rw [show x + d.1 + (-d.1, -d.2).1 = x by simp, show y + d.2 + (-d.1, -d.2).2 = y by simp] at h3
    exact le_trans h2 h3

theorem pmin_mono {f g : ℤ → ℤ → ℕ} (h : ∀ x y, f x y ≤ g x y) (x y : ℤ) :
    pmin f x y ≤ pmin g x y := by
  rw [le_pmin_iff]
  exact ⟨pmin_le_255 f x y, fun d hd => le_trans (pmin_le f x y hd) (h _ _)⟩

theorem pmin_congr {f g : ℤ → ℤ → ℕ} (h : ∀ x y, f x y = g x y) (x y : ℤ) :
    pmin f x y = pmin g x y := by
  rw [pmin, pmin]
  apply List.foldl_ext
  intro acc d _
  rw [h]

theorem pmax_congr {f g : ℤ → ℤ → ℕ} (h : ∀ x y, f x y = g x y) (x y : ℤ) :
    pmax f x y = pmax g x y := by
  rw [pmax, pmax]
  apply List.foldl_ext
  intro acc d _
  rw [h]

/-- `ε δ ε = ε` from the adjunction: the heart of opening idempotence. -/
theorem pmin_pmax_pmin (f : ℤ → ℤ → ℕ) (x y : ℤ) :
    pmin (pmax (pmin f)) x y = pmin f x y := by
  apply le_antisymm
  · have h1 : ∀ x y, pmax (pmin f) x y ≤ f x y :=
      (pmax_le_iff_le_pmin (pmin f) f (fun x y => pmin_le_255 f x y)).mpr (fun x y => le_rfl)
    exact pmin_mono h1 x y
  · exact (pmax_le_iff_le_pmin (pmin f) (pmax (pmin f))
      (fun x y => pmin_le_255 f x y)).mp (fun x y => le_rfl) x y

/-- Plane opening `δ ∘ ε` is idempotent. -/
theorem popen_idem (f : ℤ → ℤ → ℕ) (x y : ℤ) :
    pmax (pmin (pmax (pmin f))) x y = pmax (pmin f) x y :=
  pmax_congr (pmin_pmax_pmin f) x y

theorem applyErosion_width (img : Image) : (applyErosion img).width = img.width := rfl

theorem applyErosion_height (img : Image) : (applyErosion img).height = img.height := rfl

theorem applyDilation_width (img : Image) : (applyDilation img).width = img.width := rfl

theorem applyDilation_height (img : Image) : (applyDilation img).height = img.height := rfl

theorem applyOpening_width (img : Image) : (applyOpening img).width = img.width := rfl

theorem applyOpening_height (img : Image) : (applyOpening img).height = img.height := rfl

theorem erodePix_eq_pmin (img : Image) (x y : ℤ) : erodePix img x y = pmin (embed img) x y := by
  rw [erodePix, pmin]
  apply List.foldl_ext
  intro acc d _
  by_cases h : inB img.width img.height (x + d.1) (y + d.2)
  · rw [if_pos h, embed, if_pos h]
  · rw [if_neg h, embed, if_neg h, Nat.min_zero]

theorem dilatePix_eq_pmax (img : Image) (x y : ℤ) : dilatePix img x y = pmax (embed img) x y := by
  rw [dilatePix, pmax]
  apply List.foldl_ext
  intro acc d _
  by_cases h : inB img.width img.height (x + d.1) (y + d.2)
  · rw [if_pos h, embed, if_pos h]
  · rw [if_neg h, embed, if_neg h, Nat.max_zero]

theorem colorAt_grid (img : Image) (blk : ℕ → ℕ → List ℕ) (hb : ∀ x y, (blk x y).length = 4)
    (x y : ℤ) (hx0 : 0 ≤ x) (hxw : x < (img.width : ℤ)) (hy0 : 0 ≤ y)
    (hyh : y < (img.height : ℤ)) :
    colorAt ⟨img.width, img.height,
      catMap (fun yy => catMap (fun xx => blk xx yy) img.width) img.height⟩ x y 0 =
    (blk x.toNat y.toNat).getD 0 0 := by
  have hxn : ((x.toNat : ℤ)) = x := Int.toNat_of_nonneg hx0
  have hyn : ((y.toNat : ℤ)) = y := Int.toNat_of_nonneg hy0
  rw [colorAt]
  have he : (y * (img.width : ℤ) + x) * 4 = (((y.toNat * img.width + x.toNat) * 4 : ℕ) : ℤ) := by
    push_cast [hxn, hyn]
    ring
  rw [he, Int.toNat_natCast]
  have hi : (y.toNat * img.width + x.toNat) * 4 + 0 = 4 * (y.toNat * img.width + x.toNat) + 0 := by
    ring
  rw [hi]
  exact grid_getD img.width img.height blk hb x.toNat y.toNat 0 0 (by omega) (by omega) (by omega)

theorem embed_applyErosion (img : Image) (x y : ℤ) :
    embed (applyErosion img) x y = pmin (embed img) x y := by
  by_cases h : inB img.width img.height x y
  · rw [embed]
    rw [applyErosion_width, applyErosion_height] at *
    rw [if_pos h]
    obtain ⟨hx0, hxw, hy0, hyh⟩ := h
    rw [applyErosion]
    rw [colorAt_grid img (erodeBlock img) (fun _ _ => rfl) x y hx0 hxw hy0 hyh]
    show erodePix img ((x.toNat : ℤ)) ((y.toNat : ℤ)) = _
    rw [Int.toNat_of_nonneg hx0, Int.toNat_of_nonneg hy0, erodePix_eq_pmin]
  · rw [embed]
    rw [applyErosion_width, applyErosion_height] at *
    rw [if_neg h]
    have hp := pmin_le (embed img) x y (show ((0 : ℤ), (0 : ℤ)) ∈ offsets by decide)
    rw [show x + ((0 : ℤ), (0 : ℤ)).1 = x by simp, show y + ((0 : ℤ), (0 : ℤ)).2 = y by simp,
      embed, if_neg h] at hp
    omega

theorem embed_applyDilation (img : Image) (x y : ℤ) :
    embed (applyDilation img) x y =
      if inB img.width img.height x y then pmax (embed img) x y else 0 := by
  rw [embed, applyDilation_width, applyDilation_height]
  by_cases h : inB img.width img.height x y
  · rw [if_pos h, if_pos h]
    obtain ⟨hx0, hxw, hy0, hyh⟩ := h
    rw [applyDilation]
    rw [colorAt_grid img (dilateBlock img) (fun _ _ => rfl) x y hx0 hxw hy0 hyh]
    show dilatePix img ((x.toNat : ℤ)) ((y.toNat : ℤ)) = _
    rw [Int.toNat_of_nonneg hx0, Int.toNat_of_nonneg hy0, dilatePix_eq_pmax]
  · rw [if_neg h, if_neg h]

/-- Eroding the zero-extended image vanishes on and outside the window border. -/
theorem pmin_embed_border_zero (img : Image) (x y : ℤ)
    (h : x ≤ 0 ∨ (img.width : ℤ) - 1 ≤ x ∨ y ≤ 0 ∨ (img.height : ℤ) - 1 ≤ y) :
    pmin (embed img) x y = 0 := by
  rcases h with h | h | h | h
  · have hp := pmin_le (embed img) x y (show ((-1 : ℤ), (0 : ℤ)) ∈ offsets by decide)
    have hnb : ¬ inB img.width img.height (x + (-1 : ℤ)) (y + (0 : ℤ)) := by
      rintro ⟨a1, a2, a3, a4⟩
      omega
    rw [embed, if_neg hnb] at hp
    omega
  · have hp := pmin_le (embed img) x y (show ((1 : ℤ), (0 : ℤ)) ∈ offsets by decide)
    have hnb : ¬ inB img.width img.height (x + (1 : ℤ)) (y + (0 : ℤ)) := by
      rintro ⟨a1, a2, a3, a4⟩
      omega
    rw [embed, if_neg hnb] at hp
    omega
  · have hp := pmin_le (embed img) x y (show ((0 : ℤ), (-1 : ℤ)) ∈ offsets by decide)
    have hnb : ¬ inB img.width img.height (x + (0 : ℤ)) (y + (-1 : ℤ)) := by
      rintro ⟨a1, a2, a3, a4⟩
      omega
    rw [embed, if_neg hnb] at hp
    omega
  · have hp := pmin_le (embed img) x y (show ((0 : ℤ), (1 : ℤ)) ∈ offsets by decide)
    have hnb : ¬ inB img.width img.height (x + (0 : ℤ)) (y + (1 : ℤ)) := by
      rintro ⟨a1, a2, a3, a4⟩
      omega
    rw [embed, if_neg hnb] at hp
    omega

/-- The windowed opening agrees with the plane opening of the zero-extended
image everywhere on `ℤ²`. -/
theorem embed_applyOpening (img : Image) (x y : ℤ) :
    embed (applyOpening img) x y = pmax (pmin (embed img)) x y := by
  rw [applyOpening, embed_applyDilation]
  by_cases h : inB img.width img.height x y
  · rw [applyErosion_width, applyErosion_height, if_pos h]
    exact pmax_congr (embed_applyErosion img) x y
  · rw [applyErosion_width, applyErosion_height, if_neg h]
    symm
    have hle : pmax (pmin (embed img)) x y ≤ 0 := by
      rw [pmax_le_iff]
      intro d hd
      have hb := offsets_small d hd
      have hz : pmin (embed img) (x + d.1) (y + d.2) = 0 := by
        apply pmin_embed_border_zero
        simp only [inB, not_and, not_lt, not_le] at h
        omega
      omega
    omega

theorem catMap_congr (f g : ℕ → List ℕ) :
    ∀ n, (∀ i, i < n → f i = g i) → catMap f n = catMap g n
  | 0, _ => rfl
  | n + 1, h => by
      rw [catMap, catMap, catMap_congr f g n (fun i hi => h i (by omega)), h n (by omega)]

theorem applyErosion_alpha (img : Image) (x y : ℕ) (hx : x < img.width) (hy : y < img.height) :
    (applyErosion img).data.getD ((y * img.width + x) * 4 + 3) 0 =
      img.data.getD ((y * img.width + x) * 4 + 3) 0 := by
  show (catMap (fun yy => catMap (fun xx => erodeBlock img xx yy) img.width) img.height).getD
      ((y * img.width + x) * 4 + 3) 0 = _
  rw [show (y * img.width + x) * 4 + 3 = 4 * (y * img.width + x) + 3 by ring]
  rw [grid_getD img.width img.height (erodeBlock img) (fun _ _ => rfl) x y 3 0 hx hy (by omega)]
  show img.data.getD ((y * img.width + x) * 4 + 3) 0 = img.data.getD (4 * (y * img.width + x) + 3) 0
  congr 1
  ring

theorem applyDilation_alpha (img : Image) (x y : ℕ) (hx : x < img.width) (hy : y < img.height) :
    (applyDilation img).data.getD ((y * img.width + x) * 4 + 3) 0 =
      img.data.getD ((y * img.width + x) * 4 + 3) 0 := by
  show (catMap (fun yy => catMap (fun xx => dilateBlock img xx yy) img.width) img.height).getD
      ((y * img.width + x) * 4 + 3) 0 = _
  rw [show (y * img.width + x) * 4 + 3 = 4 * (y * img.width + x) + 3 by ring]
  rw [grid_getD img.width img.height (dilateBlock img) (fun _ _ => rfl) x y 3 0 hx hy (by omega)]
  show img.data.getD ((y * img.width + x) * 4 + 3) 0 = img.data.getD (4 * (y * img.width + x) + 3) 0
  congr 1
  ring

/-- C2: on binary images, opening (dilation of erosion, all-ones 3x3 element,
out-of-bounds cells = background 0) is idempotent. -/
theorem opening_idempotent (img : Image)
    (_hbin : ∀ v ∈ img.data, v = 0 ∨ v = 255) :
    applyOpening (applyOpening img) = applyOpening img := by
  have hdata : (applyOpening (applyOpening img)).data = (applyOpening img).data := by
    show catMap (fun y => catMap (fun x => dilateBlock (applyErosion (applyOpening img)) x y)
        img.width) img.height =
      catMap (fun y => catMap (fun x => dilateBlock (applyErosion img) x y) img.width) img.height
    apply catMap_congr
    intro y hy
    apply catMap_congr
    intro x hx
    -- blocks of the outer dilation of each side
    have hv : dilatePix (applyErosion (applyOpening img)) (x : ℤ) (y : ℤ) =
        dilatePix (applyErosion img) (x : ℤ) (y : ℤ) := by
      rw [dilatePix_eq_pmax, dilatePix_eq_pmax]
      have h1 : ∀ a b : ℤ, embed (applyErosion (applyOpening img)) a b =
          pmin (pmax (pmin (embed img))) a b := by
        intro a b
        rw [embed_applyErosion]
        exact pmin_congr (embed_applyOpening img) a b
      have h2 : ∀ a b : ℤ, embed (applyErosion img) a b = pmin (embed img) a b :=
        embed_applyErosion img
      rw [pmax_congr h1, pmax_congr h2]
      exact popen_idem (embed img) _ _
    have hopa : (applyOpening img).data.getD ((y * img.width + x) * 4 + 3) 0 =
        img.data.getD ((y * img.width + x) * 4 + 3) 0 := by
      have h1 := applyDilation_alpha (applyErosion img) x y hx hy
      have h2 := applyErosion_alpha img x y hx hy
      simp only [applyErosion_width, applyErosion_height] at h1
      exact h1.trans h2
    have ha : (applyErosion (applyOpening img)).data.getD ((y * img.width + x) * 4 + 3) 0 =
        (applyErosion img).data.getD ((y * img.width + x) * 4 + 3) 0 := by
      have h1 := applyErosion_alpha (applyOpening img) x y hx hy
      simp only [applyOpening_width, applyOpening_height] at h1
      have h3 := applyErosion_alpha img x y hx hy
      exact h1.trans (hopa.trans h3.symm)
    rw [dilateBlock, dilateBlock]
    simp only [applyErosion_width, applyErosion_height, applyOpening_width, applyOpening_height]
    rw [hv, ha]
  show Image.mk img.width img.height (applyOpening (applyOpening img)).data =
    Image.mk img.width img.height (applyOpening img).data
  rw [hdata]

theorem opening_witness :
    (∀ v ∈ ([255, 255, 255, 255, 0, 0, 0, 255, 0, 0, 0, 255, 255, 255, 255, 255] : List ℕ),
      v = 0 ∨ v = 255) ∧
    applyOpening (applyOpening
        ⟨2, 2, [255, 255, 255, 255, 0, 0, 0, 255, 0, 0, 0, 255, 255, 255, 255, 255]⟩) =
      applyOpening ⟨2, 2, [255, 255, 255, 255, 0, 0, 0, 255, 0, 0, 0, 255, 255, 255, 255, 255]⟩ := by
  refine ⟨by decide, ?_⟩
  exact opening_idempotent _ (by decide)

/-- C3: erosion forces every color sample to 0 at any pixel whose 3x3
footprint leaves the image, and eroding the 3x3 all-white image keeps only
the center pixel white. -/
theorem erosion_border_and_allwhite :
    (∀ (img : Image) (x y : ℕ), x < img.width → y < img.height →
      (∃ d ∈ offsets, ¬ inB img.width img.height ((x : ℤ) + d.1) ((y : ℤ) + d.2)) →
      ∀ c, c < 3 → (applyErosion img).data.getD (4 * (y * img.width + x) + c) 0 = 0) ∧
    applyErosion ⟨3, 3, List.replicate 36 255⟩ =
      ⟨3, 3, [0, 0, 0, 255, 0, 0, 0, 255, 0, 0, 0, 255,
              0, 0, 0, 255, 255, 255, 255, 255, 0, 0, 0, 255,
              0, 0, 0, 255, 0, 0, 0, 255, 0, 0, 0, 255]⟩ := by
  constructor
  · intro img x y hx hy hex c hc
    obtain ⟨d, hd, hdo⟩ := hex
    have hacc : (applyErosion img).data.getD (4 * (y * img.width + x) + c) 0 =
        (erodeBlock img x y).getD c 0 := by
      exact grid_getD img.width img.height (erodeBlock img) (fun _ _ => rfl) x y c 0 hx hy
        (by omega)
    rw [hacc]
    have hz : erodePix img (x : ℤ) (y : ℤ) = 0 := by
      rw [erodePix_eq_pmin]
      have hp := pmin_le (embed img) (x : ℤ) (y : ℤ) hd
      rw [embed, if_neg hdo] at hp
      omega
    interval_cases c
    · rw [show ((erodeBlock img x y).getD 0 0) = erodePix img x y from rfl, hz]
    · rw [show ((erodeBlock img x y).getD 1 0) = erodePix img x y from rfl, hz]
    · rw [show ((erodeBlock img x y).getD 2 0) = erodePix img x y from rfl, hz]
  · decide

theorem erosion_border_witness :
    (applyErosion ⟨2, 2, List.replicate 16 255⟩).data.getD (4 * (0 * 2 + 0) + 0) 0 = 0 :=
  erosion_border_and_allwhite.1 ⟨2, 2, List.replicate 16 255⟩ 0 0 (by decide) (by decide)
    ⟨(-1, -1), by decide, by decide⟩ 0 (by decide)

/-! ### `applyConvolution` (src/unnamed/part_002)

Generic convolution: for each output pixel accumulate
`kernel[ky][kx] * data[idx]` per color channel over the whole kernel, with
source coordinates clamped to the image edge, then `Math.round` the sums
into the clamped output array and copy alpha.  (The source accumulates the
three channel sums in one pass over the kernel; the per-channel folds below
compute exactly those sums.) -/

def kernAt (kernel : List (List ℚ)) (i j : ℕ) : ℚ := (kernel.getD i []).getD j 0

/-- Border handling: clamp a coordinate to `[0, n-1]`. -/
def clampCoord (n : ℕ) (v : ℤ) : ℤ := max 0 (min ((n : ℤ) - 1) v)

/-- Sample channel `c` at the edge-clamped coordinates `(px, py)`. -/
def sampleClamped (img : Image) (px py : ℤ) (c : ℕ) : ℚ :=
  (img.data.getD
    (((clampCoord img.height py * (img.width : ℤ) + clampCoord img.width px) * 4).toNat + c) 0 : ℚ)

def convSum (img : Image) (kernel : List (List ℚ)) (c x y : ℕ) : ℚ :=
  (List.range kernel.length).foldl (fun acc ky =>
    (List.range kernel.length).foldl (fun acc2 kx =>
      acc2 + kernAt kernel ky kx *
        sampleClamped img ((x : ℤ) + (kx : ℤ) - ((kernel.length / 2 : ℕ) : ℤ))
          ((y : ℤ) + (ky : ℤ) - ((kernel.length / 2 : ℕ) : ℤ)) c) acc) 0

def convBlock (img : Image) (kernel : List (List ℚ)) (x y : ℕ) : List ℕ :=
  [clampByte (roundJS (convSum img kernel 0 x y)),
   clampByte (roundJS (convSum img kernel 1 x y)),
   clampByte (roundJS (convSum img kernel 2 x y)),
   img.data.getD ((y * img.width + x) * 4 + 3) 0]

def applyConvolution (img : Image) (kernel : List (List ℚ)) : Image :=
  ⟨img.width, img.height,
   catMap (fun y => catMap (fun x => convBlock img kernel x y) img.width) img.height⟩

theorem foldl_add_range (g : ℕ → ℚ) : ∀ (n : ℕ) (s : ℚ),
    (List.range n).foldl (fun a i => a + g i) s = s + ∑ i ∈ Finset.range n, g i
  | 0, s => by simp
  | n + 1, s => by
      rw [List.range_succ, List.foldl_append, foldl_add_range g n s, Finset.sum_range_succ]
      show s + ∑ i ∈ Finset.range n, g i + g n = _
      ring

theorem convSum_eq_sum (img : Image) (kernel : List (List ℚ)) (c x y : ℕ) :
    convSum img kernel c x y =
      ∑ i ∈ Finset.range kernel.length, ∑ j ∈ Finset.range kernel.length,
        kernAt kernel i j *
          sampleClamped img ((x : ℤ) + (j : ℤ) - ((kernel.length / 2 : ℕ) : ℤ))
            ((y : ℤ) + (i : ℤ) - ((kernel.length / 2 : ℕ) : ℤ)) c := by
  rw [convSum]
  have hstep : ∀ (acc : ℚ), ∀ ky ∈ List.range kernel.length,
      (List.range kernel.length).foldl (fun acc2 kx =>
        acc2 + kernAt kernel ky kx *
          sampleClamped img ((x : ℤ) + (kx : ℤ) - ((kernel.length / 2 : ℕ) : ℤ))
            ((y : ℤ) + (ky : ℤ) - ((kernel.length / 2 : ℕ) : ℤ)) c) acc =
      acc + ∑ j ∈ Finset.range kernel.length,
        kernAt kernel ky j *
          sampleClamped img ((x : ℤ) + (j : ℤ) - ((kernel.length / 2 : ℕ) : ℤ))
            ((y : ℤ) + (ky : ℤ) - ((kernel.length / 2 : ℕ) : ℤ)) c := by
    intro acc ky _
    exact foldl_add_range _ kernel.length acc
  rw [List.foldl_ext _ _ 0 hstep, foldl_add_range _ kernel.length 0, zero_add]

/-- C1: for an odd square kernel, every in-range output pixel of
`applyConvolution` carries, per color channel, the rounded and byte-clamped
value of `Σ kernel[i][j] · sample(clamp(x+j-center), clamp(y+i-center))`
(clamp-to-edge border policy), while the alpha sample is copied from the
source pixel. -/
theorem convolution_clamp_to_edge (img : Image) (kernel : List (List ℚ)) (k : ℕ)
    (hk : kernel.length = k) (hodd : k % 2 = 1) (hsq : ∀ row ∈ kernel, row.length = k)
    (x y : ℕ) (hx : x < img.width) (hy : y < img.height) :
    (∀ c, c < 3 → (applyConvolution img kernel).data.getD (4 * (y * img.width + x) + c) 0 =
      clampByte (roundJS (∑ i ∈ Finset.range k, ∑ j ∈ Finset.range k,
        kernAt kernel i j *
          sampleClamped img ((x : ℤ) + (j : ℤ) - ((k / 2 : ℕ) : ℤ))
            ((y : ℤ) + (i : ℤ) - ((k / 2 : ℕ) : ℤ)) c))) ∧
    (applyConvolution img kernel).data.getD (4 * (y * img.width + x) + 3) 0 =
      img.data.getD ((y * img.width + x) * 4 + 3) 0 := by
  subst hk
  constructor
  · intro c hc
    have hacc := grid_getD img.width img.height (convBlock img kernel) (fun _ _ => rfl)
      x y c 0 hx hy (by omega)
    show (catMap _ img.height).getD _ 0 = _
    rw [hacc]
    interval_cases c
    · show clampByte (roundJS (convSum img kernel 0 x y)) = _
      rw [convSum_eq_sum]
    · show clampByte (roundJS (convSum img kernel 1 x y)) = _
      rw [convSum_eq_sum]
    · show clampByte (roundJS (convSum img kernel 2 x y)) = _
      rw [convSum_eq_sum]
  · have hacc := grid_getD img.width img.height (convBlock img kernel) (fun _ _ => rfl)
      x y 3 0 hx hy (by omega)
    show (catMap _ img.height).getD _ 0 = _
    rw [hacc]
    rfl

theorem convolution_witness :
    (applyConvolution ⟨1, 1, [5, 6, 7, 8]⟩ [[(2 : ℚ)]]).data.getD (4 * (0 * 1 + 0) + 0) 0 =
      clampByte (roundJS (∑ i ∈ Finset.range 1, ∑ j ∈ Finset.range 1,
        kernAt [[(2 : ℚ)]] i j *
          sampleClamped ⟨1, 1, [5, 6, 7, 8]⟩ ((0 : ℕ) + (j : ℤ) - ((1 / 2 : ℕ) : ℤ))
            ((0 : ℕ) + (i : ℤ) - ((1 / 2 : ℕ) : ℤ)) 0)) ∧
    (applyConvolution ⟨1, 1, [5, 6, 7, 8]⟩ [[(2 : ℚ)]]).data.getD (4 * (0 * 1 + 0) + 3) 0 =
      ([5, 6, 7, 8] : List ℕ).getD ((0 * 1 + 0) * 4 + 3) 0 := by
  have h := convolution_clamp_to_edge ⟨1, 1, [5, 6, 7, 8]⟩ [[(2 : ℚ)]] 1 (by decide)
    (by decide) (by intro row hrow; fin_cases hrow; decide) 0 0 (by decide) (by decide)
  exact ⟨h.1 0 (by decide), h.2⟩

/-! ### FFT (src/src/utils/edgeDetection.ts)

`fft1D` returns its input at length ≤ 1, throws when the length has more
than one set bit (the `n & (n-1)` check), and otherwise recurses on the
even- and odd-indexed halves.  The twiddle factors use `Math.cos`/`Math.sin`
and `Math.PI`; those transcendental values are abstracted as parameters
`cosq`, `sinq`, `piq` (the current claims are insensitive to them).
`fft2D` zero-pads both dimensions to `2^⌈log₂ n⌉` before transforming rows
and then columns; a thrown error propagates out of its loops, modelled by
`mapEx`. -/

structure Cx where
  re : ℚ
  im : ℚ
deriving DecidableEq

def cadd (a b : Cx) : Cx := ⟨a.re + b.re, a.im + b.im⟩

def csub (a b : Cx) : Cx := ⟨a.re - b.re, a.im - b.im⟩

def cmul (a b : Cx) : Cx := ⟨a.re * b.re - a.im * b.im, a.re * b.im + a.im * b.re⟩

/-- The even/odd split loop `for (i = 0; i < n; i += 2)`. -/
def deinterleave : List Cx → List Cx × List Cx
  | a :: b :: t => (a :: (deinterleave t).1, b :: (deinterleave t).2)
  | [a] => ([a], [])
  | [] => ([], [])

theorem deinterleave_fst_length : ∀ l : List Cx, (deinterleave l).1.length = (l.length + 1) / 2
  | a :: b :: t => by
      simp only [deinterleave, List.length_cons, deinterleave_fst_length t]
      omega
  | [a] => by show (1 : ℕ) = (1 + 1) / 2; decide
  | [] => rfl

theorem deinterleave_snd_length : ∀ l : List Cx, (deinterleave l).2.length = l.length / 2
  | a :: b :: t => by
      simp only [deinterleave, List.length_cons, deinterleave_snd_length t]
      omega
  | [a] => by show (0 : ℕ) = 1 / 2; decide
  | [] => rfl

def isPow2 (n : ℕ) : Prop := ∃ k, n = 2 ^ k

theorem pow2_land (k : ℕ) : (2 ^ k) &&& (2 ^ k - 1) = 0 := by
  apply Nat.eq_of_testBit_eq
  intro i
  simp [Nat.testBit_land, Nat.testBit_two_pow, Nat.testBit_two_pow_sub_one]

theorem land_pred_converse : ∀ n : ℕ, 1 ≤ n → n &&& (n - 1) = 0 → isPow2 n := by
  intro n
  induction n using Nat.strong_induction_on with
  | _ n ih =>
    intro h1 h0
    rcases Nat.lt_or_ge n 2 with h2 | h2
    · exact ⟨0, by omega⟩
    rcases Nat.even_or_odd n with he | ho
    · obtain ⟨m, hm⟩ := he
      have hm1 : 1 ≤ m := by omega
      have hrec : m &&& (m - 1) = 0 := by
        apply Nat.eq_of_testBit_eq
        intro i
        have ht := congrArg (fun z => Nat.testBit z (i + 1)) h0
        simp only [Nat.testBit_land, Nat.zero_testBit] at ht
        rw [Nat.testBit_succ, Nat.testBit_succ] at ht
        have hd1 : n / 2 = m := by omega
        have hd2 : (n - 1) / 2 = m - 1 := by omega
        rw [hd1, hd2] at ht
        simp only [Nat.testBit_land, Nat.zero_testBit]
        exact ht
      obtain ⟨k, hk⟩ := ih m (by omega) hm1 hrec
      exact ⟨k + 1, by rw [pow_succ]; omega⟩
    · exfalso
      obtain ⟨a, ha⟩ := ho
      have ha1 : 1 ≤ a := by omega
      have hbit : ∃ i, Nat.testBit a i = true := by
        by_contra hall
        push_neg at hall
        have hz : a = 0 := by
          apply Nat.eq_of_testBit_eq
          intro i
          rw [Nat.zero_testBit]
          simpa using hall i
        omega
      obtain ⟨i, hi⟩ := hbit
      have ht := congrArg (fun z => Nat.testBit z (i + 1)) h0
      simp only [Nat.testBit_land, Nat.zero_testBit] at ht
      rw [Nat.testBit_succ, Nat.testBit_succ] at ht
      have hd1 : n / 2 = a := by omega
      have hd2 : (n - 1) / 2 = a := by omega
      rw [hd1, hd2, hi] at ht
      simp at ht

/-- 1D Cooley-Tukey FFT (src `fft1D`): base case at length ≤ 1, fatal error
on a non-power-of-two length, otherwise recursive butterfly combine. -/
def fft1D (cosq sinq : ℚ → ℚ) (piq : ℚ) (data : List Cx) : Except String (List Cx) :=
  if _h1 : data.length ≤ 1 then .ok data
  else if _h2 : data.length &&& (data.length - 1) ≠ 0 then
    .error "FFT length must be a power of 2"
  else do
    let evF ← fft1D cosq sinq piq (deinterleave data).1
    let odF ← fft1D cosq sinq piq (deinterleave data).2
    return ((List.range (data.length / 2)).map (fun kk =>
        cadd (evF.getD kk ⟨0, 0⟩)
          (cmul ⟨cosq (-2 * piq * (kk : ℚ) / (data.length : ℚ)),
                 sinq (-2 * piq * (kk : ℚ) / (data.length : ℚ))⟩
            (odF.getD kk ⟨0, 0⟩))) ++
      (List.range (data.length / 2)).map (fun kk =>
        csub (evF.getD kk ⟨0, 0⟩)
          (cmul ⟨cosq (-2 * piq * (kk : ℚ) / (data.length : ℚ)),
                 sinq (-2 * piq * (kk : ℚ) / (data.length : ℚ))⟩
            (odF.getD kk ⟨0, 0⟩))))
termination_by data.length
decreasing_by
  · rw [deinterleave_fst_length]
    omega
  · rw [deinterleave_snd_length]
    omega

theorem fft1D_ok_of_pow2 (cosq sinq : ℚ → ℚ) (piq : ℚ) : ∀ (n : ℕ) (data : List Cx),
    data.length = n → (n ≤ 1 ∨ isPow2 n) → ∃ r, fft1D cosq sinq piq data = .ok r := by
  intro n
  induction n using Nat.strong_induction_on with
  | _ n ih =>
    intro data hlen hcond
    rw [fft1D]
    by_cases hle : data.length ≤ 1
    · rw [dif_pos hle]
      exact ⟨data, rfl⟩
    · rw [dif_neg hle]
      have hn2 : 2 ≤ n := by omega
      obtain ⟨k, hk⟩ := hcond.resolve_left (by omega)
      have hk1 : 1 ≤ k := by
        rcases Nat.eq_zero_or_pos k with rfl | h
        · simp at hk
          omega
        · exact h
      have hland : data.length &&& (data.length - 1) = 0 := by
        rw [hlen, hk]
        exact pow2_land k
      rw [dif_neg (fun hc => hc hland)]
      have he2 : n = 2 ^ (k - 1) * 2 := by
        rcases k with _ | k'
        · omega
        · rw [pow_succ] at hk
          simpa only [Nat.add_sub_cancel] using hk
      obtain ⟨r1, hr1⟩ := ih (n / 2) (by omega) (deinterleave data).1
        (by rw [deinterleave_fst_length, hlen]; omega)
        (Or.inr ⟨k - 1, by omega⟩)
      obtain ⟨r2, hr2⟩ := ih (n / 2) (by omega) (deinterleave data).2
        (by rw [deinterleave_snd_length, hlen])
        (Or.inr ⟨k - 1, by omega⟩)
      refine Exists.intro ((List.range (data.length / 2)).map (fun kk =>
          cadd (r1.getD kk ⟨0, 0⟩)
            (cmul ⟨cosq (-2 * piq * (kk : ℚ) / (data.length : ℚ)),
                   sinq (-2 * piq * (kk : ℚ) / (data.length : ℚ))⟩
              (r2.getD kk ⟨0, 0⟩))) ++
        (List.range (data.length / 2)).map (fun kk =>
          csub (r1.getD kk ⟨0, 0⟩)
            (cmul ⟨cosq (-2 * piq * (kk : ℚ) / (data.length : ℚ)),
                   sinq (-2 * piq * (kk : ℚ) / (data.length : ℚ))⟩
              (r2.getD kk ⟨0, 0⟩)))) ?_
      rw [hr1, hr2]
      rfl

/-- C8 part (a) as a standalone lemma: the fatal branch fires exactly on
lengths that are greater than one and not a power of two. -/
theorem fft1D_error_iff (cosq sinq : ℚ → ℚ) (piq : ℚ) (data : List Cx) :
    (∃ e, fft1D cosq sinq piq data = .error e) ↔
      1 < data.length ∧ ¬ isPow2 data.length := by
  constructor
  · rintro ⟨e, he⟩
    by_contra hc
    rw [not_and_or, not_lt, not_not] at hc
    have hok : ∃ r, fft1D cosq sinq piq data = .ok r := by
      apply fft1D_ok_of_pow2 cosq sinq piq data.length data rfl
      tauto
    obtain ⟨r, hr⟩ := hok
    rw [hr] at he
    exact Except.noConfusion he
  · rintro ⟨hlen, hnp⟩
    have hland : data.length &&& (data.length - 1) ≠ 0 := by
      intro hz
      exact hnp (land_pred_converse data.length (by omega) hz)
    rw [fft1D, dif_neg (by omega : ¬ data.length ≤ 1), dif_pos hland]
    exact ⟨_, rfl⟩

/-- Error-propagating sequential map: the model of a source loop that calls
a throwing function on each element. -/
def mapEx {α β : Type} (f : α → Except String β) : List α → Except String (List β)
  | [] => .ok []
  | a :: t =>
    match f a with
    | .error e => .error e
    | .ok b =>
      match mapEx f t with
      | .error e => .error e
      | .ok bs => .ok (b :: bs)

theorem mapEx_ok {α β : Type} (f : α → Except String β) :
    ∀ l : List α, (∀ a ∈ l, ∃ b, f a = .ok b) → ∃ bs, mapEx f l = .ok bs
  | [], _ => ⟨[], rfl⟩
  | a :: t, h => by
      obtain ⟨b, hb⟩ := h a (by simp)
      obtain ⟨bs, hbs⟩ := mapEx_ok f t (fun x hx => h x (by simp [hx]))
      exact ⟨b :: bs, by rw [mapEx, hb, hbs]⟩

/-- `Math.pow(2, Math.ceil(Math.log2(n)))`: the next power of two. -/
def nextPow2 (n : ℕ) : ℕ := 2 ^ Nat.clog 2 n

/-- The zero-padded complex matrix of step 2 of the spectrum pipeline. -/
def padded (matrix : List (List ℚ)) : List (List Cx) :=
  (List.range (nextPow2 matrix.length)).map (fun i =>
    (List.range (nextPow2 (matrix.headD []).length)).map (fun j =>
      if i < matrix.length ∧ j < (matrix.headD []).length then
        ⟨(matrix.getD i []).getD j 0, 0⟩
      else ⟨0, 0⟩))

/-- Column extraction (`column.push(complexMatrix[i][j])`). -/
def colAt (rowsF : List (List Cx)) (pr j : ℕ) : List Cx :=
  (List.range pr).map (fun i => (rowsF.getD i []).getD j ⟨0, 0⟩)

/-- 2D FFT: pad to powers of two, FFT all rows, then FFT all columns and
write them back. -/
def fft2D (cosq sinq : ℚ → ℚ) (piq : ℚ) (matrix : List (List ℚ)) :
    Except String (List (List Cx)) :=
  (mapEx (fft1D cosq sinq piq) (padded matrix)).bind fun rowsF =>
  (mapEx (fun j => fft1D cosq sinq piq (colAt rowsF (nextPow2 matrix.length) j))
      (List.range (nextPow2 (matrix.headD []).length))).bind fun colsF =>
  .ok ((List.range (nextPow2 matrix.length)).map (fun i =>
    (List.range (nextPow2 (matrix.headD []).length)).map (fun j =>
      (colsF.getD j []).getD i ⟨0, 0⟩)))

theorem fft2D_ok (cosq sinq : ℚ → ℚ) (piq : ℚ) (matrix : List (List ℚ))
    (_hrows : 1 ≤ matrix.length) : ∃ res, fft2D cosq sinq piq matrix = .ok res := by
  have hr : ∀ row ∈ padded matrix, ∃ b, fft1D cosq sinq piq row = .ok b := by
    intro row hrow
    obtain ⟨i, _, rfl⟩ := List.mem_map.mp hrow
    apply fft1D_ok_of_pow2 cosq sinq piq (nextPow2 (matrix.headD []).length)
    · simp [List.length_map, List.length_range]
    · exact Or.inr ⟨Nat.clog 2 (matrix.headD []).length, rfl⟩
  obtain ⟨rowsF, h1⟩ := mapEx_ok (fft1D cosq sinq piq) (padded matrix) hr
  have hc : ∀ j ∈ List.range (nextPow2 (matrix.headD []).length),
      ∃ b, fft1D cosq sinq piq (colAt rowsF (nextPow2 matrix.length) j) = .ok b := by
    intro j _
    apply fft1D_ok_of_pow2 cosq sinq piq (nextPow2 matrix.length)
    · simp [colAt, List.length_map, List.length_range]
    · exact Or.inr ⟨Nat.clog 2 matrix.length, rfl⟩
  obtain ⟨colsF, h2⟩ := mapEx_ok
    (fun j => fft1D cosq sinq piq (colAt rowsF (nextPow2 matrix.length) j))
    (List.range (nextPow2 (matrix.headD []).length)) hc
  refine Exists.intro ((List.range (nextPow2 matrix.length)).map (fun i =>
    (List.range (nextPow2 (matrix.headD []).length)).map (fun j =>
      (colsF.getD j []).getD i ⟨0, 0⟩))) ?_
  unfold fft2D
  rw [h1]
  simp only [Except.bind]
  rw [h2]

/-- C8: the 1D FFT raises its fatal error exactly on input lengths that are
greater than one and not a power of two, and the spectrum pipeline cannot
reach that branch: `fft2D` zero-pads both dimensions to the next power of
two and always returns a result. -/
theorem fft_error_iff_and_spectrum_safe :
    (∀ (cosq sinq : ℚ → ℚ) (piq : ℚ) (data : List Cx),
      (∃ e, fft1D cosq sinq piq data = .error e) ↔
        1 < data.length ∧ ¬ isPow2 data.length) ∧
    (∀ (cosq sinq : ℚ → ℚ) (piq : ℚ) (matrix : List (List ℚ)), 1 ≤ matrix.length →
      ∃ res, fft2D cosq sinq piq matrix = .ok res) :=
  ⟨fft1D_error_iff, fft2D_ok⟩

theorem fft_witness :
    (∃ e, fft1D (fun _ => 0) (fun _ => 0) 0 [⟨1, 0⟩, ⟨2, 0⟩, ⟨3, 0⟩] = .error e) ∧
    (∃ res, fft2D (fun _ => 0) (fun _ => 0) 0 [[1, 2], [3, 4]] = .ok res) := by
  constructor
  · apply (fft_error_iff_and_spectrum_safe.1 _ _ _ _).mpr
    refine ⟨by decide, ?_⟩
    rintro ⟨k, hk⟩
    simp only [List.length_cons, List.length_nil] at hk
    rcases k with _ | k'
    · simp at hk
    · rw [pow_succ] at hk
      omega
  · exact fft_error_iff_and_spectrum_safe.2 _ _ _ _ (by decide)

/-! ### Custom formula evaluator (src/src/utils/customFilters.ts)

`applyCustomFormula` evaluates the user formula once per color channel.
For channel `g` it calls `evaluateFormula(formula.replace(/r/g, 'g'),
{...context, r: context.g})` — both a textual rewrite of every letter `r`
in the formula and a substitution of the channel value into the `r` slot —
and for `r` the rewrite is the identity.  `evaluateFormula` itself rewrites
`^`/`PI`/`E`, evaluates via a dynamically built JavaScript function, clamps
`round(result)` into `[0,255]`, and on any failure returns `context.r`.
The JavaScript engine is not part of this repository, so evaluation is
modelled from the spec below; formulas are character lists. -/

abbrev Chars := List Char

structure Ctx where
  r : ℚ
  g : ℚ
  b : ℚ
  x : ℚ
  y : ℚ
  w : ℚ
  h : ℚ
deriving DecidableEq

/-- `formula.replace(/r/g, c)`: rewrite every occurrence of the letter `r`. -/
def substChannel (c : Char) (f : Chars) : Chars :=
  f.map (fun ch => if ch = 'r' then c else ch)

/-- Left-to-right non-overlapping substring replacement (`String.replace`
with a global regex); the fuel argument only bounds the recursion and is
always passed the text length plus one. -/
def replaceSeq (pat rep : Chars) : ℕ → Chars → Chars
  | _, [] => []
  | 0, t => t
  | fu + 1, c :: t =>
    if pat.isPrefixOf (c :: t) then rep ++ replaceSeq pat rep fu ((c :: t).drop pat.length)
    else c :: replaceSeq pat rep fu t

/-- Decimal digits of `String(Math.PI)`. -/
def piChars : Chars := ['3', '.', '1', '4', '1', '5', '9', '2', '6', '5', '3', '5', '8', '9', '7', '9', '3']

/-- Decimal digits of `String(Math.E)`. -/
def eChars : Chars := ['2', '.', '7', '1', '8', '2', '8', '1', '8', '2', '8', '4', '5', '9', '0', '4', '5']

/-- The `safeFormula` preprocessing: `^` to `**`, then `PI` and `E` to
their decimal expansions. -/
def safeFormula (f : Chars) : Chars :=
  replaceSeq ['E'] eChars
    ((replaceSeq ['P', 'I'] piChars
      ((replaceSeq ['^'] ['*', '*'] (f.length + 1) f).length + 1)
      (replaceSeq ['^'] ['*', '*'] (f.length + 1) f)).length + 1)
    (replaceSeq ['P', 'I'] piChars
      ((replaceSeq ['^'] ['*', '*'] (f.length + 1) f).length + 1)
      (replaceSeq ['^'] ['*', '*'] (f.length + 1) f))

inductive Tok where
  | num (q : ℚ)
  | id (s : Chars)
  | plus
  | minus
  | star
  | slash
  | powT
  | lpar
  | rpar
  | comma
deriving DecidableEq

def natOfDigits (l : Chars) : ℕ := l.foldl (fun a c => a * 10 + (c.toNat - 48)) 0

def mkNum (ds fs : Chars) : ℚ :=
  (natOfDigits ds : ℚ) + (natOfDigits fs : ℚ) / (10 : ℚ) ^ fs.length

/-- Modelled from the spec: lexer for the custom-formula grammar (infix
arithmetic over numbers, the variable/function identifiers, parentheses and
commas); any character outside the grammar makes evaluation fail, as a
malformed expression does in the JavaScript engine. -/
def tokenize : ℕ → Chars → Option (List Tok)
  | _, [] => some []
  | 0, _ :: _ => none
  | fu + 1, c :: rest =>
    if c = ' ' then tokenize fu rest
    else if c.isDigit then
      match (c :: rest).dropWhile Char.isDigit with
      | '.' :: r2 =>
        (tokenize fu (r2.dropWhile Char.isDigit)).map (fun ts =>
          Tok.num (mkNum ((c :: rest).takeWhile Char.isDigit) (r2.takeWhile Char.isDigit)) :: ts)
      | r1 =>
        (tokenize fu r1).map (fun ts =>
          Tok.num (mkNum ((c :: rest).takeWhile Char.isDigit) []) :: ts)
    else if c.isAlpha then
      (tokenize fu ((c :: rest).dropWhile Char.isAlpha)).map (fun ts =>
        Tok.id ((c :: rest).takeWhile Char.isAlpha) :: ts)
    else if c = '+' then (tokenize fu rest).map (fun ts => Tok.plus :: ts)
    else if c = '-' then (tokenize fu rest).map (fun ts => Tok.minus :: ts)
    else if c = '*' then
      match rest with
      | '*' :: r2 => (tokenize fu r2).map (fun ts => Tok.powT :: ts)
      | _ => (tokenize fu rest).map (fun ts => Tok.star :: ts)
    else if c = '/' then (tokenize fu rest).map (fun ts => Tok.slash :: ts)
    else if c = '(' then (tokenize fu rest).map (fun ts => Tok.lpar :: ts)
    else if c = ')' then (tokenize fu rest).map (fun ts => Tok.rpar :: ts)
    else if c = ',' then (tokenize fu rest).map (fun ts => Tok.comma :: ts)
    else none

inductive Expr where
  | num (q : ℚ)
  | var (s : Chars)
  | neg (a : Expr)
  | add (a b : Expr)
  | sub (a b : Expr)
  | mul (a b : Expr)
  | div (a b : Expr)
  | pw (a b : Expr)
  | call1 (s : Chars) (a : Expr)
  | call2 (s : Chars) (a b : Expr)
deriving DecidableEq

/-- Modelled from the spec: recursive-descent parser for the formula
grammar with JavaScript precedence (additive < multiplicative < power <
unary/atom, calls of one or two arguments).  The level argument selects the
production; the fuel argument only bounds the recursion depth. -/
def parseP : ℕ → ℕ → Expr → List Tok → Option (Expr × List Tok)
  | 0, _, _, _ => none
  | fu + 1, 0, acc, ts =>
    match parseP fu 2 acc ts with
    | some (e, ts1) => parseP fu 1 e ts1
    | none => none
  | fu + 1, 1, acc, ts =>
    match ts with
    | Tok.plus :: t =>
      match parseP fu 2 acc t with
      | some (e, ts1) => parseP fu 1 (Expr.add acc e) ts1
      | none => none
    | Tok.minus :: t =>
      match parseP fu 2 acc t with
      | some (e, ts1) => parseP fu 1 (Expr.sub acc e) ts1
      | none => none
    | _ => some (acc, ts)
  | fu + 1, 2, acc, ts =>
    match parseP fu 4 acc ts with
    | some (e, ts1) => parseP fu 3 e ts1
    | none => none
  | fu + 1, 3, acc, ts =>
    match ts with
    | Tok.star :: t =>
      match parseP fu 4 acc t with
      | some (e, ts1) => parseP fu 3 (Expr.mul acc e) ts1
      | none => none
    | Tok.slash :: t =>
      match parseP fu 4 acc t with
      | some (e, ts1) => parseP fu 3 (Expr.div acc e) ts1
      | none => none
    | _ => some (acc, ts)
  | fu + 1, 4, acc, ts =>
    match parseP fu 5 acc ts with
    | some (e, ts1) =>
      match ts1 with
      | Tok.powT :: t =>
        match parseP fu 4 acc t with
        | some (e2, ts2) => some (Expr.pw e e2, ts2)
        | none => none
      | _ => some (e, ts1)
    | none => none
  | fu + 1, _, acc, ts =>
    match ts with
    | Tok.num q :: t => some (Expr.num q, t)
    | Tok.minus :: t =>
      match parseP fu 5 acc t with
      | some (e, ts1) => some (Expr.neg e, ts1)
      | none => none
    | Tok.lpar :: t =>
      match parseP fu 0 acc t with
      | some (e, ts1) =>
        match ts1 with
        | Tok.rpar :: t2 => some (e, t2)
        | _ => none
      | none => none
    | Tok.id s :: Tok.lpar :: t =>
      match parseP fu 0 acc t with
      | some (a1, ts1) =>
        match ts1 with
        | Tok.rpar :: t2 => some (Expr.call1 s a1, t2)
        | Tok.comma :: t2 =>
          match parseP fu 0 acc t2 with
          | some (a2, ts2) =>
            match ts2 with
            | Tok.rpar :: t3 => some (Expr.call2 s a1 a2, t3)
            | _ => none
          | none => none
        | _ => none
      | none => none
    | Tok.id s :: t => some (Expr.var s, t)
    | _ => none

/-- Modelled from the spec: evaluation of a parsed formula over the context
variables `r g b x y w h` and the exactly-representable part of the
function whitelist (`abs`, `floor`, `ceil`, `round`, `min`, `max`); an
unknown identifier fails like an unbound name in the generated JavaScript
function, and the float-only operations (`sin`, `cos`, `tan`, `sqrt`,
`log`, division by zero, fractional powers) are outside the exact model and
also fail. -/
def evalE (ctx : Ctx) : Expr → Option ℚ
  | .num q => some q
  | .var s =>
    if s = ['r'] then some ctx.r
    else if s = ['g'] then some ctx.g
    else if s = ['b'] then some ctx.b
    else if s = ['x'] then some ctx.x
    else if s = ['y'] then some ctx.y
    else if s = ['w'] then some ctx.w
    else if s = ['h'] then some ctx.h
    else none
  | .neg a => (evalE ctx a).map (fun v => -v)
  | .add a b =>
    match evalE ctx a, evalE ctx b with
    | some va, some vb => some (va + vb)
    | _, _ => none
  | .sub a b =>
    match evalE ctx a, evalE ctx b with
    | some va, some vb => some (va - vb)
    | _, _ => none
  | .mul a b =>
    match evalE ctx a, evalE ctx b with
    | some va, some vb => some (va * vb)
    | _, _ => none
  | .div a b =>
    match evalE ctx a, evalE ctx b with
    | some va, some vb => if vb = 0 then none else some (va / vb)
    | _, _ => none
  | .pw a b =>
    match evalE ctx a, evalE ctx b with
    | some va, some vb => if vb.den = 1 then some (va ^ vb.num) else none
    | _, _ => none
  | .call1 s a =>
    match evalE ctx a with
    | some v =>
      if s = ['a', 'b', 's'] then some (abs v)
      else if s = ['f', 'l', 'o', 'o', 'r'] then some ((⌊v⌋ : ℤ) : ℚ)
      else if s = ['c', 'e', 'i', 'l'] then some ((⌈v⌉ : ℤ) : ℚ)
      else if s = ['r', 'o', 'u', 'n', 'd'] then some ((roundJS v : ℤ) : ℚ)
      else none
    | none => none
  | .call2 s a b =>
    match evalE ctx a, evalE ctx b with
    | some va, some vb =>
      if s = ['m', 'i', 'n'] then some (min va vb)
      else if s = ['m', 'a', 'x'] then some (max va vb)
      else none
    | _, _ => none

/-- Modelled from the spec: the whole try-block of `evaluateFormula` — the
`safeFormula` rewrites followed by construction and invocation of the
JavaScript function; `none` is a thrown evaluation error. -/
def evalFormula (f : Chars) (ctx : Ctx) : Option ℚ :=
  match tokenize ((safeFormula f).length + 1) (safeFormula f) with
  | none => none
  | some ts =>
    match parseP (3 * ts.length + 3) 0 (Expr.num 0) ts with
    | some (e, []) => evalE ctx e
    | _ => none

/-- `evaluateFormula`: clamp `round(result)` into `[0,255]` on success,
return `context.r` on any failure. -/
def evaluateFormula (f : Chars) (ctx : Ctx) : ℚ :=
  match evalFormula f ctx with
  | some v => ((max 0 (min 255 (roundJS v)) : ℤ) : ℚ)
  | none => ctx.r

/-- The per-pixel evaluation context of `applyCustomFormula`. -/
def ctxAt (img : Image) (x y : ℕ) : Ctx :=
  ⟨(img.data.getD ((y * img.width + x) * 4) 0 : ℚ),
   (img.data.getD ((y * img.width + x) * 4 + 1) 0 : ℚ),
   (img.data.getD ((y * img.width + x) * 4 + 2) 0 : ℚ),
   (x : ℚ), (y : ℚ), (img.width : ℚ), (img.height : ℚ)⟩

def formulaBlock (img : Image) (f : Chars) (x y : ℕ) : List ℕ :=
  [clampByte (roundJS (evaluateFormula (substChannel 'r' f) (ctxAt img x y))),
   clampByte (roundJS (evaluateFormula (substChannel 'g' f)
     { ctxAt img x y with r := (ctxAt img x y).g })),
   clampByte (roundJS (evaluateFormula (substChannel 'b' f)
     { ctxAt img x y with r := (ctxAt img x y).b })),
   img.data.getD ((y * img.width + x) * 4 + 3) 0]

def applyCustomFormula (img : Image) (f : Chars) : Image :=
  ⟨img.width, img.height,
   catMap (fun y => catMap (fun x => formulaBlock img f x y) img.width) img.height⟩

/-- C7: if evaluation of the formula fails, `evaluateFormula` returns the
channel-substituted `r` value of the context; no error reaches the caller
(the function is total). -/
theorem evaluateFormula_fallback (f : Chars) (ctx : Ctx)
    (h : evalFormula f ctx = none) : evaluateFormula f ctx = ctx.r := by
  simp only [evaluateFormula, h]

theorem evaluateFormula_fallback_witness :
    evaluateFormula ['('] ⟨5, 1, 2, 0, 0, 1, 1⟩ = 5 :=
  evaluateFormula_fallback ['('] ⟨5, 1, 2, 0, 0, 1, 1⟩ (by decide)

section

/- `Rat`'s arithmetic is `@[irreducible]` by default, which blocks `decide`
from evaluating the formula interpreter on concrete inputs; within this
section the four core operations are made semireducible again (the kernel
re-checks the resulting proofs in full). -/
attribute [local semireducible] Rat.add Rat.sub Rat.mul Rat.inv

/-- C6 counterexample: with formula `floor(4.5)` and a pixel whose green
value is 7, the green output of `applyCustomFormula` is 7 (the fallback),
not the rounded/clamped value 4 of the expression evaluated with the green
value in the `r` slot — the textual `r`-rewrite corrupts the function name
for the green channel. -/
theorem customFormula_counterexample :
    (applyCustomFormula ⟨1, 1, [5, 7, 9, 255]⟩
        ['f', 'l', 'o', 'o', 'r', '(', '4', '.', '5', ')']).data.getD 1 0 ≠
      clampByte (roundJS (evaluateFormula ['f', 'l', 'o', 'o', 'r', '(', '4', '.', '5', ')']
        { ctxAt ⟨1, 1, [5, 7, 9, 255]⟩ 0 0 with r := (ctxAt ⟨1, 1, [5, 7, 9, 255]⟩ 0 0).g })) := by
  decide

/-- C6 amended: at every in-range pixel, `applyCustomFormula` stores per
color channel the rounded and clamped result of evaluating the formula
with every letter `r` textually rewritten to the channel letter and with
the channel value substituted into the `r` slot (the red rewrite being the
identity), falling back to the channel value when the rewritten expression
fails; alpha is copied from the source pixel. -/
theorem customFormula_pointwise (img : Image) (f : Chars) (x y : ℕ)
    (hx : x < img.width) (hy : y < img.height) :
    ((applyCustomFormula img f).data.getD (4 * (y * img.width + x)) 0 =
        clampByte (roundJS (evaluateFormula (substChannel 'r' f) (ctxAt img x y))) ∧
      (applyCustomFormula img f).data.getD (4 * (y * img.width + x) + 1) 0 =
        clampByte (roundJS (evaluateFormula (substChannel 'g' f)
          { ctxAt img x y with r := (ctxAt img x y).g })) ∧
      (applyCustomFormula img f).data.getD (4 * (y * img.width + x) + 2) 0 =
        clampByte (roundJS (evaluateFormula (substChannel 'b' f)
          { ctxAt img x y with r := (ctxAt img x y).b }))) ∧
    (applyCustomFormula img f).data.getD (4 * (y * img.width + x) + 3) 0 =
      img.data.getD ((y * img.width + x) * 4 + 3) 0 := by
  have h0 := grid_getD img.width img.height (formulaBlock img f) (fun _ _ => rfl)
    x y 0 0 hx hy (by omega)
  have h1 := grid_getD img.width img.height (formulaBlock img f) (fun _ _ => rfl)
    x y 1 0 hx hy (by omega)
  have h2 := grid_getD img.width img.height (formulaBlock img f) (fun _ _ => rfl)
    x y 2 0 hx hy (by omega)
  have h3 := grid_getD img.width img.height (formulaBlock img f) (fun _ _ => rfl)
    x y 3 0 hx hy (by omega)
  exact ⟨⟨h0, h1, h2⟩, h3⟩

theorem customFormula_pointwise_witness :
    (applyCustomFormula ⟨1, 1, [5, 7, 9, 255]⟩
        ['f', 'l', 'o', 'o', 'r', '(', '4', '.', '5', ')']).data.getD (4 * (0 * 1 + 0) + 3) 0 =
      ([5, 7, 9, 255] : List ℕ).getD ((0 * 1 + 0) * 4 + 3) 0 :=
  (customFormula_pointwise ⟨1, 1, [5, 7, 9, 255]⟩
    ['f', 'l', 'o', 'o', 'r', '(', '4', '.', '5', ')'] 0 0 (by decide) (by decide)).2

end

end ImageVisLab
